import Mathlib

/-!
Verification of the edge-extraction / path-segmentation / simplification /
polynomial-fitting pipeline of the `code_of_eyes` repository.

The TypeScript sources are embedded shallowly over exact real arithmetic:

* `src/services/imageProcessor.ts` : `getEdges`, `segmentEdges`;
* the math-fitting module : `solveMatrix`, `fitPolynomial`, `simplifyPoints`;
* the application module (`processImage`) : the top-5 longest-path selection.

Mutable JS arrays become functional updates, `for` loops become folds over
the corresponding index lists, and JS floating-point numbers become `ℝ`.
-/

set_option maxHeartbeats 1600000

noncomputable section

namespace Eyes

/-- Point in pixel space, from the repository's `Point` interface:
an ordered pair of real coordinates. -/
structure Point where
  x : ℝ
  y : ℝ

instance : Inhabited Point := ⟨⟨0, 0⟩⟩

/-- Grayscale luminance of pixel `idx` of an RGBA byte stream `data`:
`(data[4*idx] + data[4*idx+1] + data[4*idx+2]) / 3` (alpha ignored),
from the grayscale loop of `getEdges` in `imageProcessor.ts`. -/
def grayAt (data : ℕ → ℝ) (idx : ℕ) : ℝ :=
  (data (4 * idx) + data (4 * idx + 1) + data (4 * idx + 2)) / 3

/-- Edge extraction (`getEdges` in `imageProcessor.ts`): for every pixel
strictly inside the one-pixel border (`y` from `1` to `h-2`, `x` from `1`
to `w-2`), the central-difference gradient magnitude is compared with the
threshold and the pixel's coordinates are emitted when it exceeds it.
The two nested `for` loops become a flattened map over the index lists. -/
def getEdges (data : ℕ → ℝ) (w h : ℕ) (threshold : ℝ) : List Point :=
  (((List.range (h - 2)).map (· + 1)).map (fun y =>
    ((List.range (w - 2)).map (· + 1)).filterMap (fun x =>
      let idx := y * w + x
      let gx := grayAt data (idx + 1) - grayAt data (idx - 1)
      let gy := grayAt data (idx + w) - grayAt data (idx - w)
      let mag := Real.sqrt (gx * gx + gy * gy)
      if mag > threshold then some ⟨(x : ℝ), (y : ℝ)⟩ else none))).flatten

/-- Euclidean distance as computed in `segmentEdges`:
`Math.sqrt(Math.pow(curr.x - last.x, 2) + Math.pow(curr.y - last.y, 2))`. -/
def euclidDist (last curr : Point) : ℝ :=
  Real.sqrt ((curr.x - last.x) ^ 2 + (curr.y - last.y) ^ 2)

/-- One iteration of the walk in `segmentEdges`: the accumulator holds the
committed paths and the (always nonempty) current path; `last` is
`currentPath[currentPath.length - 1]`.  A point closer than `maxGap` to
`last` is appended; otherwise the current path is committed when its length
exceeds 20 and a fresh path is started with the breaking point. -/
def segStep (maxGap : ℝ) (acc : List (List Point) × List Point) (curr : Point) :
    List (List Point) × List Point :=
  let last := acc.2.getD (acc.2.length - 1) default
  if euclidDist last curr < maxGap then (acc.1, acc.2 ++ [curr])
  else (if 20 < acc.2.length then acc.1 ++ [acc.2] else acc.1, [curr])

/-- Path segmentation (`segmentEdges` in `imageProcessor.ts`): sort the
points by ascending x, then walk them left to right chaining points whose
distance to the last appended point is below `maxGap`; fragments of more
than 20 points are committed, shorter ones discarded.  The final current
path is committed under the same length condition. -/
def segmentEdges (points : List Point) (maxGap : ℝ) : List (List Point) :=
  if points.isEmpty then []
  else
    let sorted := points.mergeSort (fun a b => decide (a.x ≤ b.x))
    let res := (sorted.drop 1).foldl (segStep maxGap) ([], [sorted.getD 0 default])
    if 20 < res.2.length then res.1 ++ [res.2] else res.1

/-- Top-path selection from `processImage` in the application module:
sort the segmented paths by descending point count and keep the first 5
(`.sort((a, b) => b.length - a.length).slice(0, 5)`). -/
def topPaths (paths : List (List Point)) : List (List Point) :=
  (paths.mergeSort (fun a b => decide (b.length ≤ a.length))).take 5

/-- Perpendicular distance of `p` from the line through `p1` and `p2`
(`findPerpendicularDistance` inside `simplifyPoints`). -/
def perpDist (p p1 p2 : Point) : ℝ :=
  let dx := p2.x - p1.x
  let dy := p2.y - p1.y
  |dy * p.x - dx * p.y + p2.x * p1.y - p2.y * p1.x| / Real.sqrt (dx * dx + dy * dy)

/-- One step of the scan in `simplifyPoints` that finds the interior point
of maximum perpendicular distance to the chord: the accumulated
`(dmax, index)` is replaced by `(d, i)` whenever a strictly larger
distance `d` is found. -/
def maxDistStep (points : List Point) (acc : ℝ × ℕ) (i : ℕ) : ℝ × ℕ :=
  let d := perpDist (points.getD i default) (points.getD 0 default)
    (points.getD (points.length - 1) default)
  if acc.1 < d then (d, i) else acc

/-- The scan in `simplifyPoints` that finds the interior point of maximum
perpendicular distance to the chord: `dmax` and `index` start at `(0, 0)`
and are updated whenever a strictly larger distance is found, for
`i = 1 .. points.length - 2`. -/
def maxDistFold (points : List Point) : ℝ × ℕ :=
  ((List.range (points.length - 2)).map (· + 1)).foldl (maxDistStep points) (0, 0)

/-- Fuelled Douglas-Peucker recursion (`simplifyPoints` in the math-fitting
module).  The source recurses on `points.slice(0, index + 1)` and
`points.slice(index)`; the fuel (an artifact of the embedding) bounds the
recursion depth, and `none` models the (unreachable for `ε ≥ 0`) case in
which the source recursion would not terminate.  Both fuel cases carry the
same base and collapse branches, exactly as in the source body. -/
def simplifyF : ℕ → List Point → ℝ → Option (List Point)
  | 0, points, ε =>
    if points.length ≤ 2 then some points
    else if (maxDistFold points).1 > ε then none
    else some [points.getD 0 default, points.getD (points.length - 1) default]
  | f + 1, points, ε =>
    if points.length ≤ 2 then some points
    else if (maxDistFold points).1 > ε then
      match simplifyF f (points.take ((maxDistFold points).2 + 1)) ε,
          simplifyF f (points.drop (maxDistFold points).2) ε with
      | some r1, some r2 => some (r1.dropLast ++ r2)
      | _, _ => none
    else some [points.getD 0 default, points.getD (points.length - 1) default]

/-- Douglas-Peucker simplification (`simplifyPoints`): the fuelled
recursion run with fuel `points.length`, which is proved sufficient for
every `ε ≥ 0`. -/
def simplifyPoints (points : List Point) (ε : ℝ) : List Point :=
  (simplifyF points.length points ε).getD []

/-- One comparison of the partial-pivot scan in `solveMatrix`:
`if (Math.abs(A[j][i]) > Math.abs(A[max][i])) max = j`. -/
def pivotStep {n : ℕ} (A : Matrix (Fin n) (Fin n) ℝ) (i m j : Fin n) : Fin n :=
  if |A m i| < |A j i| then j else m

/-- Partial-pivot selection in `solveMatrix`: starting from `max = i`,
scan rows `j = i+1 .. n-1` and keep the row with the largest `|A[j][i]|`. -/
def pivotRow {n : ℕ} (A : Matrix (Fin n) (Fin n) ℝ) (i : Fin n) : Fin n :=
  ((List.finRange n).filter (fun j => decide (i < j))).foldl (pivotStep A i) i

/-- Row swap in `solveMatrix`: `[A[i], A[max]] = [A[max], A[i]]` together
with the matching swap of the two entries of `B`. -/
def swapSys {n : ℕ} (A : Matrix (Fin n) (Fin n) ℝ) (B : Fin n → ℝ) (i m : Fin n) :
    Matrix (Fin n) (Fin n) ℝ × (Fin n → ℝ) :=
  (A.submatrix (Equiv.swap i m) id, B ∘ Equiv.swap i m)

/-- Row elimination in `solveMatrix` for one row `j` below the pivot row
`i`: `factor = A[j][i] / A[i][i]`, `B[j] -= factor * B[i]`, and
`A[j][k] -= factor * A[i][k]` for `k = i .. n-1` (columns left of `i` are
not touched by the inner loop). -/
def elimStep {n : ℕ} (i : Fin n)
    (AB : Matrix (Fin n) (Fin n) ℝ × (Fin n → ℝ)) (j : Fin n) :
    Matrix (Fin n) (Fin n) ℝ × (Fin n → ℝ) :=
  let f := AB.1 j i / AB.1 i i
  (AB.1.updateRow j (fun k => if i ≤ k then AB.1 j k - f * AB.1 i k else AB.1 j k),
   Function.update AB.2 j (AB.2 j - f * AB.2 i))

/-- One iteration of the outer elimination loop of `solveMatrix`: select
the pivot row, swap it into place, then eliminate column `i` from every
row below. -/
def forwardStep {n : ℕ} (AB : Matrix (Fin n) (Fin n) ℝ × (Fin n → ℝ)) (i : Fin n) :
    Matrix (Fin n) (Fin n) ℝ × (Fin n → ℝ) :=
  let S := swapSys AB.1 AB.2 i (pivotRow AB.1 i)
  ((List.finRange n).filter (fun j => decide (i < j))).foldl (elimStep i) S

/-- Forward phase of `solveMatrix`: the outer loop over `i = 0 .. n-1`. -/
def forwardElim {n : ℕ} (A : Matrix (Fin n) (Fin n) ℝ) (B : Fin n → ℝ) :
    Matrix (Fin n) (Fin n) ℝ × (Fin n → ℝ) :=
  (List.finRange n).foldl forwardStep (A, B)

/-- One row of back substitution in `solveMatrix`:
`x[i] = (B[i] - Σ_{j>i} A[i][j]*x[j]) / A[i][i]`. -/
def backStep {n : ℕ} (A : Matrix (Fin n) (Fin n) ℝ) (B : Fin n → ℝ)
    (x : Fin n → ℝ) (i : Fin n) : Fin n → ℝ :=
  Function.update x i
    ((B i - ∑ j ∈ Finset.univ.filter (fun j => i < j), A i j * x j) / A i i)

/-- Back substitution of `solveMatrix`: `x` starts as the zero vector and,
for `i = n-1` down to `0`, is updated row by row. -/
def backSub {n : ℕ} (A : Matrix (Fin n) (Fin n) ℝ) (B : Fin n → ℝ) : Fin n → ℝ :=
  ((List.finRange n).reverse).foldl (backStep A B) (fun _ => 0)

/-- Linear solver (`solveMatrix` in the math-fitting module): Gaussian
elimination with partial pivoting followed by back substitution. -/
def solveMatrix {n : ℕ} (A : Matrix (Fin n) (Fin n) ℝ) (B : Fin n → ℝ) : Fin n → ℝ :=
  let F := forwardElim A B
  backSub F.1 F.2

/-- Verification-side predicate for C2: the matrix has only zeros strictly
below the diagonal in the first `v` columns (the progress measure of the
forward elimination). -/
def ZeroBelow {n : ℕ} (A : Matrix (Fin n) (Fin n) ℝ) (v : ℕ) : Prop :=
  ∀ r c : Fin n, c.val < v → c.val < r.val → A r c = 0

/-- Verification-side predicate for C2: the system `S` is nonsingular and
has exactly the same solutions as the original system `A₀ x = B₀`. -/
def EquivSys {n : ℕ} (A₀ : Matrix (Fin n) (Fin n) ℝ) (B₀ : Fin n → ℝ)
    (S : Matrix (Fin n) (Fin n) ℝ × (Fin n → ℝ)) : Prop :=
  S.1.det ≠ 0 ∧ ∀ x : Fin n → ℝ, S.1.mulVec x = S.2 ↔ A₀.mulVec x = B₀

/-- Result record of the polynomial fitter, from the repository's
`FittingResult` interface (the `type` tag is kept as a string). -/
structure FittingResult where
  formula : String
  points : List Point
  coefficients : List ℝ
  type : String

/-- Sentinel result returned by `fitPolynomial` when there are fewer
points than `degree + 1`. -/
def insufficientData : FittingResult :=
  ⟨"Insufficient Data", [], [], "polynomial"⟩

/-- Rendering of a coefficient with two decimal places (`c.toFixed(2)`);
modelled by rounding the real to hundredths.  No claim depends on the
digits of the formula string. -/
def toFixed2 (c : ℝ) : String :=
  let q : ℤ := ⌊c * 100 + 1 / 2⌋
  let a := q.natAbs
  (if q < 0 then "-" else "") ++ toString (a / 100) ++ "." ++
    (if a % 100 < 10 then "0" else "") ++ toString (a % 100)

/-- Direct power-summation evaluation of the fitted polynomial, as in the
curve-sampling loop of `fitPolynomial`: `Σ coefficients[i] * nx^i`. -/
def polyEval (coefficients : List ℝ) (nx : ℝ) : ℝ :=
  ∑ i ∈ Finset.range coefficients.length, coefficients.getD i 0 * nx ^ i

/-- Polynomial fitting (`fitPolynomial` in the math-fitting module).
With fewer than `degree + 1` points the sentinel is returned.  Otherwise
the points are normalized by `width`/`height`, the least-squares normal
equations are assembled (`A[i][j] = Σ x^(i+j)`, `B[i] = Σ x^i * y`) and
solved, the display formula is formatted highest degree first, and the
curve is resampled at `x = 0, 5, 10, ...` while `x ≤ width` (the integers
`5*k` with `5*k ≤ width`, i.e. `k ≤ ⌊width/5⌋`). -/
def fitPolynomial (points : List Point) (degree : ℕ) (width height : ℝ) :
    FittingResult :=
  if points.length < degree + 1 then insufficientData
  else
    let normPoints := points.map (fun p => Point.mk (p.x / width) (p.y / height))
    let A : Matrix (Fin (degree + 1)) (Fin (degree + 1)) ℝ :=
      fun i j => (normPoints.map (fun p => p.x ^ (i.val + j.val))).sum
    let B : Fin (degree + 1) → ℝ :=
      fun i => (normPoints.map (fun p => p.x ^ i.val * p.y)).sum
    let coefficients := List.ofFn (solveMatrix A B)
    let formulaParts := (coefficients.mapIdx (fun i c =>
      if i = 0 then toFixed2 c
      else if i = 1 then toFixed2 c ++ "x"
      else toFixed2 c ++ "x^\x7b" ++ toString i ++ "\x7d")).reverse
    let formula := "f(x) = " ++ String.intercalate " + " formulaParts
    let curvePoints := (List.range ((⌊width / 5⌋ + 1).toNat)).map (fun k : ℕ =>
      Point.mk (5 * (k : ℝ)) (polyEval coefficients (5 * (k : ℝ) / width) * height))
    ⟨formula, curvePoints, coefficients, "polynomial"⟩

/-- Specification-side characterization of the resampled curve, used to
state C7: every curve point has x-coordinate a real multiple of 5 not
exceeding `width` and y-coordinate `height * Σ cᵢ (x/width)^i`; every
multiple of 5 not exceeding `width` occurs as a sampled x; and the curve
is listed in strictly ascending x order. -/
def curveMatchesSpec (r : FittingResult) (width height : ℝ) : Prop :=
  (∀ p ∈ r.points, ∃ k : ℕ, p.x = 5 * k ∧ p.x ≤ width ∧
      p.y = height * polyEval r.coefficients (p.x / width)) ∧
  (∀ k : ℕ, (5 * k : ℝ) ≤ width → (5 * k : ℝ) ∈ r.points.map Point.x) ∧
  List.Chain' (fun p q => p.x < q.x) r.points

/-! Theorems. -/

/-- C1: `fitPolynomial` returns the sentinel result (the fixed
"Insufficient Data" formula, empty curve, empty coefficients) exactly when
the input list has fewer than `degree + 1` points. -/
theorem fitPolynomial_sentinel_iff (points : List Point) (degree : ℕ)
    (width height : ℝ) :
    fitPolynomial points degree width height = insufficientData ↔
      points.length < degree + 1 := by
  constructor
  · intro h
    by_contra hlt
    rw [fitPolynomial, if_neg hlt] at h
    have hc := congrArg FittingResult.coefficients h
    simp only [insufficientData] at hc
    have hlen := congrArg List.length hc
    simp at hlen
  · intro h
    rw [fitPolynomial, if_pos h]

/-- C9: every point emitted by `getEdges` has integer coordinates lying
strictly inside the one-pixel border: `1 ≤ x ≤ w-2`, `1 ≤ y ≤ h-2`, so no
point has `x ∈ {0, w-1}` or `y ∈ {0, h-1}`. -/
theorem getEdges_border (data : ℕ → ℝ) (w h : ℕ) (threshold : ℝ) :
    ∀ p ∈ getEdges data w h threshold, ∃ x y : ℕ,
      p = ⟨(x : ℝ), (y : ℝ)⟩ ∧ 1 ≤ x ∧ x ≤ w - 2 ∧ 1 ≤ y ∧ y ≤ h - 2 ∧
      x ≠ 0 ∧ x ≠ w - 1 ∧ y ≠ 0 ∧ y ≠ h - 1 := by
  intro p hp
  simp only [getEdges] at hp
  obtain ⟨l, hl, hpl⟩ := List.mem_flatten.1 hp
  obtain ⟨y, hy, rfl⟩ := List.mem_map.1 hl
  obtain ⟨b, hb, rfl⟩ := List.mem_map.1 hy
  obtain ⟨x, hx, hsome⟩ := List.mem_filterMap.1 hpl
  obtain ⟨a, ha, rfl⟩ := List.mem_map.1 hx
  rw [List.mem_range] at hb
  rw [List.mem_range] at ha
  rw [ite_eq_iff] at hsome
  rcases hsome with ⟨-, hsome⟩ | ⟨-, hsome⟩
  · obtain rfl := Option.some.inj hsome
    exact ⟨a + 1, b + 1, rfl, by omega, by omega, by omega, by omega,
      by omega, by omega, by omega, by omega⟩
  · exact absurd hsome (by simp)

/-- Witness for C9 at a concrete 3x3 buffer with a linear luminance ramp
and threshold `-1` (every interior pixel qualifies). -/
theorem getEdges_border_witness :
    (⟨1, 1⟩ : Point) ∈ getEdges (fun m => (m : ℝ)) 3 3 (-1) ∧
    ∃ x y : ℕ, (⟨1, 1⟩ : Point) = ⟨(x : ℝ), (y : ℝ)⟩ ∧ 1 ≤ x ∧ x ≤ 3 - 2 ∧
      1 ≤ y ∧ y ≤ 3 - 2 ∧ x ≠ 0 ∧ x ≠ 3 - 1 ∧ y ≠ 0 ∧ y ≠ 3 - 1 := by
  have key : ∀ g : ℝ, Real.sqrt g > (-1 : ℝ) := fun g =>
    lt_of_lt_of_le (by norm_num) (Real.sqrt_nonneg g)
  have hmem : (⟨1, 1⟩ : Point) ∈ getEdges (fun m => (m : ℝ)) 3 3 (-1) := by
    simp [getEdges, List.range_succ, key]
  exact ⟨hmem, getEdges_border (fun m => (m : ℝ)) 3 3 (-1) ⟨1, 1⟩ hmem⟩

/-- Helper for C6 and C8: one step of the segmentation walk preserves the
invariant that the current path is nonempty and gap-chained and that every
committed path is gap-chained with more than 20 points. -/
theorem segStep_preserves (maxGap : ℝ) (acc : List (List Point) × List Point)
    (c : Point) (h1 : acc.2 ≠ [])
    (h2 : List.Chain' (fun p q => euclidDist p q < maxGap) acc.2)
    (h3 : ∀ path ∈ acc.1, 20 < path.length ∧
      List.Chain' (fun p q => euclidDist p q < maxGap) path) :
    (segStep maxGap acc c).2 ≠ [] ∧
    List.Chain' (fun p q => euclidDist p q < maxGap) (segStep maxGap acc c).2 ∧
    ∀ path ∈ (segStep maxGap acc c).1, 20 < path.length ∧
      List.Chain' (fun p q => euclidDist p q < maxGap) path := by
  simp only [segStep]
  by_cases hd : euclidDist (acc.2.getD (acc.2.length - 1) default) c < maxGap
  · rw [if_pos hd]
    refine ⟨by simp, ?_, h3⟩
    rw [List.chain'_append]
    refine ⟨h2, List.chain'_singleton _, ?_⟩
    intro u hu v hv
    simp only [List.head?_cons, Option.mem_def, Option.some.injEq] at hv
    subst hv
    rw [List.getLast?_eq_getLast _ h1, Option.mem_def, Option.some.injEq] at hu
    subst hu
    have hlt : acc.2.length - 1 < acc.2.length :=
      Nat.sub_lt (List.length_pos.2 h1) Nat.one_pos
    have hgd : acc.2.getLast h1 = acc.2.getD (acc.2.length - 1) default := by
      rw [List.getLast_eq_getElem, List.getD_eq_getElem?_getD,
        List.getElem?_eq_getElem hlt, Option.getD_some]
    rw [hgd]
    exact hd
  · rw [if_neg hd]
    refine ⟨by simp, List.chain'_singleton _, ?_⟩
    by_cases h20 : 20 < acc.2.length
    · rw [if_pos h20]
      intro path hpath
      rcases List.mem_append.1 hpath with hmem | hmem
      · exact h3 path hmem
      · rw [List.mem_singleton] at hmem
        subst hmem
        exact ⟨h20, h2⟩
    · rw [if_neg h20]
      exact h3

/-- Helper for C6 and C8: the segmentation walk keeps its invariant over
the whole point list. -/
theorem segFold_invariant (maxGap : ℝ) (l : List Point) :
    ∀ acc : List (List Point) × List Point, acc.2 ≠ [] →
      List.Chain' (fun p q => euclidDist p q < maxGap) acc.2 →
      (∀ path ∈ acc.1, 20 < path.length ∧
        List.Chain' (fun p q => euclidDist p q < maxGap) path) →
      (l.foldl (segStep maxGap) acc).2 ≠ [] ∧
      List.Chain' (fun p q => euclidDist p q < maxGap)
        (l.foldl (segStep maxGap) acc).2 ∧
      ∀ path ∈ (l.foldl (segStep maxGap) acc).1, 20 < path.length ∧
        List.Chain' (fun p q => euclidDist p q < maxGap) path := by
  induction l with
  | nil => intro acc h1 h2 h3; exact ⟨h1, h2, h3⟩
  | cons c t ih =>
    intro acc h1 h2 h3
    rw [List.foldl_cons]
    obtain ⟨g1, g2, g3⟩ := segStep_preserves maxGap acc c h1 h2 h3
    exact ih _ g1 g2 g3

/-- Helper for C6 and C8: every path produced by `segmentEdges` is
gap-chained and longer than 20 points. -/
theorem segmentEdges_paths (points : List Point) (maxGap : ℝ) :
    ∀ path ∈ segmentEdges points maxGap, 20 < path.length ∧
      List.Chain' (fun p q => euclidDist p q < maxGap) path := by
  intro path hp
  simp only [segmentEdges] at hp
  by_cases hemp : points.isEmpty
  · rw [if_pos hemp] at hp
    simp at hp
  · rw [if_neg hemp] at hp
    obtain ⟨g1, g2, g3⟩ := segFold_invariant maxGap
      ((points.mergeSort (fun a b => decide (a.x ≤ b.x))).drop 1)
      ([], [(points.mergeSort (fun a b => decide (a.x ≤ b.x))).getD 0 default])
      (by simp) (List.chain'_singleton _) (by simp)
    set R := ((points.mergeSort (fun a b => decide (a.x ≤ b.x))).drop 1).foldl
      (segStep maxGap) ([], [(points.mergeSort
        (fun a b => decide (a.x ≤ b.x))).getD 0 default]) with hR
    by_cases h20 : 20 < R.2.length
    · rw [if_pos h20] at hp
      rcases List.mem_append.1 hp with hmem | hmem
      · exact g3 path hmem
      · rw [List.mem_singleton] at hmem
        subst hmem
        exact ⟨h20, g2⟩
    · rw [if_neg h20] at hp
      exact g3 path hp

/-- C6: for every input and every positive `maxGap`, consecutive points of
every path returned by `segmentEdges` are at Euclidean distance strictly
less than `maxGap`. -/
theorem segmentEdges_gap (points : List Point) (maxGap : ℝ) (hg : 0 < maxGap) :
    ∀ path ∈ segmentEdges points maxGap,
      List.Chain' (fun p q => euclidDist p q < maxGap) path :=
  fun path hp => (segmentEdges_paths points maxGap path hp).2

/-- Witness for C6 at a concrete input. -/
theorem segmentEdges_gap_witness :
    (0 : ℝ) < 1 ∧ ∀ path ∈ segmentEdges [] 1,
      List.Chain' (fun p q => euclidDist p q < 1) path :=
  ⟨by norm_num, segmentEdges_gap [] 1 (by norm_num)⟩

/-- C8: every path in the output of `segmentEdges` has strictly more than
20 points, and consequently so does every path of the top-5 selection that
`processImage` makes from that output. -/
theorem segmentEdges_length_filter (points : List Point) (maxGap : ℝ) :
    ((segmentEdges points maxGap).all fun path => decide (20 < path.length))
        = true ∧
    ((topPaths (segmentEdges points maxGap)).all
        fun path => decide (20 < path.length)) = true := by
  constructor
  · rw [List.all_eq_true]
    intro path hp
    exact decide_eq_true ((segmentEdges_paths points maxGap path hp).1)
  · rw [List.all_eq_true]
    intro path hp
    have hmem : path ∈ segmentEdges points maxGap := by
      rw [topPaths] at hp
      exact List.mem_mergeSort.1 (List.take_subset _ _ hp)
    exact decide_eq_true ((segmentEdges_paths points maxGap path hmem).1)

/-- Helper: the maximum-distance scan keeps its accumulator either at the
initial `(0, 0)` or at an index drawn from the scanned range. -/
theorem maxDistFold_aux (points : List Point) (B : ℕ) :
    ∀ (l : List ℕ) (acc : ℝ × ℕ), (∀ i ∈ l, 1 ≤ i ∧ i ≤ B) →
      (acc = (0, 0) ∨ (1 ≤ acc.2 ∧ acc.2 ≤ B)) →
      (l.foldl (maxDistStep points) acc = (0, 0) ∨
        (1 ≤ (l.foldl (maxDistStep points) acc).2 ∧
          (l.foldl (maxDistStep points) acc).2 ≤ B)) := by
  intro l
  induction l with
  | nil => intro acc _ h; exact h
  | cons i t ih =>
    intro acc hmem h
    rw [List.foldl_cons]
    apply ih
    · intro j hj
      exact hmem j (List.mem_cons_of_mem _ hj)
    · simp only [maxDistStep]
      split
      · exact Or.inr (hmem i (List.mem_cons_self _ _))
      · exact h

/-- Helper for C3, C5, C10: when the maximum perpendicular distance
exceeds some `ε ≥ 0`, the split index lies strictly between the first and
last positions. -/
theorem maxDistFold_pos_index (points : List Point) (ε : ℝ) (hε : 0 ≤ ε)
    (hgt : (maxDistFold points).1 > ε) :
    1 ≤ (maxDistFold points).2 ∧ (maxDistFold points).2 ≤ points.length - 2 := by
  have h0 : maxDistFold points = (0, 0) ∨
      (1 ≤ (maxDistFold points).2 ∧ (maxDistFold points).2 ≤ points.length - 2) := by
    rw [maxDistFold]
    apply maxDistFold_aux
    · intro i hi
      obtain ⟨a, ha, rfl⟩ := List.mem_map.1 hi
      rw [List.mem_range] at ha
      omega
    · exact Or.inl rfl
  rcases h0 with h | h
  · rw [h] at hgt
    simp at hgt
    linarith
  · exact h

/-- Helper: the fuelled simplification recursion is monotone in the fuel:
once it succeeds it returns the same value with any larger fuel. -/
theorem simplifyF_mono :
    ∀ (fuel : ℕ) (points : List Point) (ε : ℝ) (out : List Point) (fuel' : ℕ),
      simplifyF fuel points ε = some out → fuel ≤ fuel' →
      simplifyF fuel' points ε = some out := by
  intro fuel
  induction fuel with
  | zero =>
    intro points ε out fuel' h hle
    rw [simplifyF] at h
    by_cases h2 : points.length ≤ 2
    · rw [if_pos h2] at h
      cases fuel' with
      | zero => rw [simplifyF, if_pos h2]; exact h
      | succ f' => rw [simplifyF, if_pos h2]; exact h
    · rw [if_neg h2] at h
      by_cases hgt : (maxDistFold points).1 > ε
      · rw [if_pos hgt] at h
        exact absurd h (by simp)
      · rw [if_neg hgt] at h
        cases fuel' with
        | zero => rw [simplifyF, if_neg h2, if_neg hgt]; exact h
        | succ f' => rw [simplifyF, if_neg h2, if_neg hgt]; exact h
  | succ f ih =>
    intro points ε out fuel' h hle
    rw [simplifyF] at h
    by_cases h2 : points.length ≤ 2
    · rw [if_pos h2] at h
      cases fuel' with
      | zero => rw [simplifyF, if_pos h2]; exact h
      | succ f' => rw [simplifyF, if_pos h2]; exact h
    · rw [if_neg h2] at h
      by_cases hgt : (maxDistFold points).1 > ε
      · rw [if_pos hgt] at h
        obtain ⟨f', rfl⟩ : ∃ f', fuel' = f' + 1 := ⟨fuel' - 1, by omega⟩
        rw [simplifyF, if_neg h2, if_pos hgt]
        rcases hr1 : simplifyF f (points.take ((maxDistFold points).2 + 1)) ε with - | r1
        · rw [hr1] at h
          simp at h
        · rcases hr2 : simplifyF f (points.drop (maxDistFold points).2) ε with - | r2
          · rw [hr1, hr2] at h
            simp at h
          · rw [hr1, hr2] at h
            rw [ih _ _ _ _ hr1 (by omega), ih _ _ _ _ hr2 (by omega)]
            exact h
      · rw [if_neg hgt] at h
        cases fuel' with
        | zero => rw [simplifyF, if_neg h2, if_neg hgt]; exact h
        | succ f' => rw [simplifyF, if_neg h2, if_neg hgt]; exact h

/-- Helper for C10: fuel `points.length` (indeed any fuel within 2 of the
length) suffices for the simplification recursion when `ε ≥ 0`. -/
theorem simplifyF_isSome (ε : ℝ) (hε : 0 ≤ ε) :
    ∀ (fuel : ℕ) (points : List Point), points.length ≤ fuel + 2 →
      ∃ out, simplifyF fuel points ε = some out := by
  intro fuel
  induction fuel with
  | zero =>
    intro points hlen
    rw [simplifyF, if_pos (by omega)]
    exact ⟨points, rfl⟩
  | succ f ih =>
    intro points hlen
    by_cases h2 : points.length ≤ 2
    · rw [simplifyF, if_pos h2]
      exact ⟨points, rfl⟩
    · by_cases hgt : (maxDistFold points).1 > ε
      · have hidx := maxDistFold_pos_index points ε hε hgt
        obtain ⟨r1, hr1⟩ := ih (points.take ((maxDistFold points).2 + 1))
          (by simp only [List.length_take]; omega)
        obtain ⟨r2, hr2⟩ := ih (points.drop (maxDistFold points).2)
          (by simp only [List.length_drop]; omega)
        rw [simplifyF, if_neg h2, if_pos hgt, hr1, hr2]
        exact ⟨r1.dropLast ++ r2, rfl⟩
      · rw [simplifyF, if_neg h2, if_neg hgt]
        exact ⟨_, rfl⟩

/-- Helper: recursion equation satisfied by `simplifyPoints` for `ε ≥ 0`,
mirroring the branch structure of the source. -/
theorem simplifyPoints_eq (points : List Point) (ε : ℝ) (hε : 0 ≤ ε) :
    simplifyPoints points ε =
      if points.length ≤ 2 then points
      else if (maxDistFold points).1 > ε then
        (simplifyPoints (points.take ((maxDistFold points).2 + 1)) ε).dropLast ++
          simplifyPoints (points.drop (maxDistFold points).2) ε
      else [points.getD 0 default, points.getD (points.length - 1) default] := by
  by_cases h2 : points.length ≤ 2
  · rw [if_pos h2, simplifyPoints]
    cases hL : points.length with
    | zero => rw [simplifyF, if_pos (by omega)]; rfl
    | succ f => rw [simplifyF, if_pos (by rw [hL] at h2 ⊢; exact h2)]; rfl
  · rw [if_neg h2, simplifyPoints]
    obtain ⟨f, hf⟩ : ∃ f, points.length = f + 1 := ⟨points.length - 1, by omega⟩
    have hstep : simplifyF points.length points ε = simplifyF (f + 1) points ε := by
      rw [hf]
    rw [hstep, simplifyF, if_neg h2]
    by_cases hgt : (maxDistFold points).1 > ε
    · rw [if_pos hgt, if_pos hgt]
      have hidx := maxDistFold_pos_index points ε hε hgt
      obtain ⟨r1, hr1⟩ := simplifyF_isSome ε hε
        (points.take ((maxDistFold points).2 + 1)).length
        (points.take ((maxDistFold points).2 + 1)) (by omega)
      obtain ⟨r2, hr2⟩ := simplifyF_isSome ε hε
        (points.drop (maxDistFold points).2).length
        (points.drop (maxDistFold points).2) (by omega)
      have m1 := simplifyF_mono _ _ _ _ f hr1
        (by simp only [List.length_take]; omega)
      have m2 := simplifyF_mono _ _ _ _ f hr2
        (by simp only [List.length_drop]; omega)
      rw [m1, m2, simplifyPoints, simplifyPoints, hr1, hr2]
      rfl
    · rw [if_neg hgt, if_neg hgt]
      rfl

/-- Helper for C3 and C5: on inputs with at least two points the
simplification output has at least two points (for `ε ≥ 0`). -/
theorem simplifyPoints_two_le (ε : ℝ) (hε : 0 ≤ ε) :
    ∀ (n : ℕ) (points : List Point), points.length ≤ n → 2 ≤ points.length →
      2 ≤ (simplifyPoints points ε).length := by
  intro n
  induction n with
  | zero => intro points h1 h2; omega
  | succ n ih =>
    intro points h1 h2
    rw [simplifyPoints_eq points ε hε]
    by_cases hb : points.length ≤ 2
    · rw [if_pos hb]
      exact h2
    · rw [if_neg hb]
      by_cases hgt : (maxDistFold points).1 > ε
      · rw [if_pos hgt]
        have hidx := maxDistFold_pos_index points ε hε hgt
        have t1 : 2 ≤ (simplifyPoints (points.take ((maxDistFold points).2 + 1)) ε).length :=
          ih _ (by simp only [List.length_take]; omega)
            (by simp only [List.length_take]; omega)
        have t2 : 2 ≤ (simplifyPoints (points.drop (maxDistFold points).2) ε).length :=
          ih _ (by simp only [List.length_drop]; omega)
            (by simp only [List.length_drop]; omega)
        rw [List.length_append, List.length_dropLast]
        omega
      · rw [if_neg hgt]
        simp

/-- Helper for C3: antitonicity of the output length in `ε`, by induction
on a bound of the input length. -/
theorem simplify_length_anti_aux (ε1 ε2 : ℝ) (h0 : 0 ≤ ε1) (h12 : ε1 ≤ ε2) :
    ∀ (n : ℕ) (points : List Point), points.length ≤ n →
      (simplifyPoints points ε2).length ≤ (simplifyPoints points ε1).length := by
  have h02 : 0 ≤ ε2 := le_trans h0 h12
  intro n
  induction n with
  | zero =>
    intro points h1
    have hemp : points = [] := List.length_eq_zero.1 (by omega)
    subst hemp
    simp [simplifyPoints, simplifyF]
  | succ n ih =>
    intro points h1
    rw [simplifyPoints_eq points ε1 h0, simplifyPoints_eq points ε2 h02]
    by_cases hb : points.length ≤ 2
    · rw [if_pos hb, if_pos hb]
    · rw [if_neg hb, if_neg hb]
      by_cases hgt1 : (maxDistFold points).1 > ε1
      · have hidx := maxDistFold_pos_index points ε1 h0 hgt1
        rw [if_pos hgt1]
        by_cases hgt2 : (maxDistFold points).1 > ε2
        · rw [if_pos hgt2]
          have m1 := ih (points.take ((maxDistFold points).2 + 1))
            (by simp only [List.length_take]; omega)
          have m2 := ih (points.drop (maxDistFold points).2)
            (by simp only [List.length_drop]; omega)
          rw [List.length_append, List.length_append, List.length_dropLast,
            List.length_dropLast]
          omega
        · rw [if_neg hgt2]
          have t1 : 2 ≤ (simplifyPoints (points.take ((maxDistFold points).2 + 1)) ε1).length :=
            simplifyPoints_two_le ε1 h0 n _
              (by simp only [List.length_take]; omega)
              (by simp only [List.length_take]; omega)
          have t2 : 2 ≤ (simplifyPoints (points.drop (maxDistFold points).2) ε1).length :=
            simplifyPoints_two_le ε1 h0 n _
              (by simp only [List.length_drop]; omega)
              (by simp only [List.length_drop]; omega)
          rw [List.length_append, List.length_dropLast]
          simp only [List.length_cons, List.length_nil]
          omega
      · have hle1 : (maxDistFold points).1 ≤ ε1 := not_lt.1 hgt1
        rw [if_neg hgt1, if_neg (not_lt.2 (le_trans hle1 h12))]

/-- C3: for a fixed point list and tolerances `0 ≤ ε1 ≤ ε2`, the output of
`simplifyPoints` at `ε2` is at most as long as the output at `ε1`: the
output length is non-increasing in epsilon. -/
theorem simplifyPoints_length_antitone (points : List Point) (ε1 ε2 : ℝ)
    (h1 : 0 ≤ ε1) (h2 : ε1 ≤ ε2) :
    (simplifyPoints points ε2).length ≤ (simplifyPoints points ε1).length :=
  simplify_length_anti_aux ε1 ε2 h1 h2 points.length points le_rfl

/-- Witness for C3 at a concrete input. -/
theorem simplifyPoints_length_antitone_witness :
    (0 : ℝ) ≤ 0 ∧ (0 : ℝ) ≤ 1 ∧
      (simplifyPoints [⟨0, 0⟩, ⟨1, 1⟩] 1).length ≤
        (simplifyPoints [⟨0, 0⟩, ⟨1, 1⟩] 0).length :=
  ⟨le_refl 0, by norm_num,
    simplifyPoints_length_antitone [⟨0, 0⟩, ⟨1, 1⟩] 0 1 (le_refl 0) (by norm_num)⟩

/-- Helper: `dropLast` preserves the sublist relation. -/
theorem sublist_dropLast {α : Type*} {s l : List α} (h : s.Sublist l) :
    s.dropLast.Sublist l.dropLast := by
  induction h with
  | slnil => exact List.Sublist.refl _
  | cons a h ih =>
    rename_i s l
    rcases l with - | ⟨b, t⟩
    · obtain rfl := List.sublist_nil.1 h
      exact List.Sublist.refl _
    · rw [List.dropLast_cons₂]
      exact ih.cons a
  | cons₂ a h ih =>
    rename_i s l
    rcases l with - | ⟨b, t⟩
    · obtain rfl := List.sublist_nil.1 h
      exact List.nil_sublist _
    · rcases s with - | ⟨c, u⟩
      · exact List.nil_sublist _
      · rw [List.dropLast_cons₂, List.dropLast_cons₂]
        exact ih.cons₂ a

/-- Helper: on a list of at least two elements, `dropLast` keeps the head. -/
theorem head?_dropLast_of_two_le {α : Type*} (l : List α) (h : 2 ≤ l.length) :
    l.dropLast.head? = l.head? := by
  rcases l with - | ⟨a, t⟩
  · simp at h
  · rcases t with - | ⟨b, u⟩
    · simp at h
    · simp

/-- Helper: taking at least one element keeps the head. -/
theorem head?_take_succ {α : Type*} (l : List α) (k : ℕ) :
    (l.take (k + 1)).head? = l.head? := by
  rcases l with - | ⟨a, t⟩ <;> simp

/-- Helper: dropping fewer elements than the length keeps the last. -/
theorem getLast?_drop_of_lt {α : Type*} :
    ∀ (l : List α) (k : ℕ), k < l.length → (l.drop k).getLast? = l.getLast? := by
  intro l
  induction l with
  | nil => intro k h; simp at h
  | cons a t ih =>
    intro k h
    rcases k with - | k
    · simp
    · rw [List.drop_succ_cons, ih k (by simpa using h)]
      rcases t with - | ⟨b, u⟩
      · simp at h
      · simp

/-- Helper: `dropLast` after `take (k+1)` is `take k` (within bounds). -/
theorem dropLast_take_succ {α : Type*} (l : List α) (k : ℕ) (h : k + 1 ≤ l.length) :
    (l.take (k + 1)).dropLast = l.take k := by
  rw [List.dropLast_eq_take, List.length_take, List.take_take]
  congr 1
  omega

/-- Helper for C5: head, last and sublist preservation of the
simplification, by induction on a bound of the input length. -/
theorem simplify_endpoints_aux (ε : ℝ) (hε : 0 ≤ ε) :
    ∀ (n : ℕ) (points : List Point), points.length ≤ n → points ≠ [] →
      (simplifyPoints points ε).head? = points.head? ∧
      (simplifyPoints points ε).getLast? = points.getLast? ∧
      (simplifyPoints points ε).Sublist points := by
  intro n
  induction n with
  | zero =>
    intro points h1 h2
    exact absurd (List.length_eq_zero.1 (by omega)) h2
  | succ n ih =>
    intro points h1 hne
    rw [simplifyPoints_eq points ε hε]
    by_cases hb : points.length ≤ 2
    · rw [if_pos hb]
      exact ⟨rfl, rfl, List.Sublist.refl _⟩
    · rw [if_neg hb]
      push_neg at hb
      by_cases hgt : (maxDistFold points).1 > ε
      · rw [if_pos hgt]
        have hidx := maxDistFold_pos_index points ε hε hgt
        have hTlen : (points.take ((maxDistFold points).2 + 1)).length =
            (maxDistFold points).2 + 1 := by
          simp only [List.length_take]
          omega
        have hDlen : (points.drop (maxDistFold points).2).length =
            points.length - (maxDistFold points).2 := List.length_drop _ _
        have hTne : points.take ((maxDistFold points).2 + 1) ≠ [] := by
          intro he
          rw [he] at hTlen
          simp at hTlen
        have hDne : points.drop (maxDistFold points).2 ≠ [] := by
          intro he
          rw [he] at hDlen
          simp at hDlen
          omega
        obtain ⟨e1h, e1l, e1s⟩ := ih (points.take ((maxDistFold points).2 + 1))
          (by omega) hTne
        obtain ⟨e2h, e2l, e2s⟩ := ih (points.drop (maxDistFold points).2)
          (by omega) hDne
        have hT2 : 2 ≤ (simplifyPoints (points.take ((maxDistFold points).2 + 1)) ε).length :=
          simplifyPoints_two_le ε hε n _ (by omega) (by omega)
        have hD2 : 2 ≤ (simplifyPoints (points.drop (maxDistFold points).2) ε).length :=
          simplifyPoints_two_le ε hε n _ (by omega) (by omega)
        refine ⟨?_, ?_, ?_⟩
        · rw [List.head?_append, head?_dropLast_of_two_le _ hT2, e1h, head?_take_succ]
          obtain ⟨a, t, rfl⟩ := List.exists_cons_of_ne_nil hne
          simp
        · rw [List.getLast?_append, e2l, getLast?_drop_of_lt points _ (by omega),
            List.getLast?_eq_getLast points hne]
          simp
        · have s1 : (simplifyPoints (points.take ((maxDistFold points).2 + 1)) ε).dropLast.Sublist
              (points.take (maxDistFold points).2) := by
            have hs := sublist_dropLast e1s
            rwa [dropLast_take_succ points _ (by omega)] at hs
          have hall := s1.append e2s
          rwa [List.take_append_drop] at hall
      · rw [if_neg hgt]
        obtain ⟨a, t, rfl⟩ := List.exists_cons_of_ne_nil hne
        rcases List.eq_nil_or_concat t with rfl | ⟨u, b, rfl⟩
        · simp at hb
        · rw [List.concat_eq_append]
          have hcons : a :: (u ++ [b]) = (a :: u) ++ [b] := by
            simp
          have hlen : (a :: (u ++ [b])).length - 1 = (a :: u).length := by
            simp
          have hd0 : (a :: (u ++ [b])).getD 0 default = a := rfl
          have hdl : (a :: (u ++ [b])).getD ((a :: (u ++ [b])).length - 1) default = b := by
            rw [hlen, hcons, List.getD_eq_getElem?_getD, List.getElem?_concat_length]
            rfl
          refine ⟨rfl, ?_, ?_⟩
          · rw [hdl, hcons, List.getLast?_concat]
            simp
          · rw [hd0, hdl]
            exact List.Sublist.cons₂ a (List.sublist_append_right _ _)

/-- C5: for a nonempty input and `ε ≥ 0`, the simplification preserves the
first and last point, returns an order-preserving subsequence of the input
vertices, and never exceeds the input length. -/
theorem simplifyPoints_endpoints (points : List Point) (ε : ℝ)
    (hne : points ≠ []) (hε : 0 ≤ ε) :
    (simplifyPoints points ε).head? = points.head? ∧
    (simplifyPoints points ε).getLast? = points.getLast? ∧
    (simplifyPoints points ε).Sublist points ∧
    (simplifyPoints points ε).length ≤ points.length := by
  obtain ⟨h1, h2, h3⟩ := simplify_endpoints_aux ε hε points.length points le_rfl hne
  exact ⟨h1, h2, h3, h3.length_le⟩

/-- Witness for C5 at a concrete input. -/
theorem simplifyPoints_endpoints_witness :
    ([⟨0, 0⟩] : List Point) ≠ [] ∧ (0 : ℝ) ≤ 0 ∧
      ((simplifyPoints [⟨0, 0⟩] 0).head? = ([⟨0, 0⟩] : List Point).head? ∧
       (simplifyPoints [⟨0, 0⟩] 0).getLast? = ([⟨0, 0⟩] : List Point).getLast? ∧
       (simplifyPoints [⟨0, 0⟩] 0).Sublist [⟨0, 0⟩] ∧
       (simplifyPoints [⟨0, 0⟩] 0).length ≤ ([⟨0, 0⟩] : List Point).length) :=
  ⟨by simp, le_refl 0, simplifyPoints_endpoints [⟨0, 0⟩] 0 (by simp) (le_refl 0)⟩

/-- C10: for every input list and every `ε ≥ 0` the simplification
recursion terminates: fuel `points.length` (and any larger fuel) yields
one and the same defined result, because a split forced by
`dmax > ε ≥ 0` always lands strictly inside the list, so both recursive
calls receive strictly shorter lists. -/
theorem simplifyPoints_terminates (points : List Point) (ε : ℝ) (hε : 0 ≤ ε) :
    ∃ out, ∀ fuel, points.length ≤ fuel → simplifyF fuel points ε = some out := by
  obtain ⟨out, hout⟩ := simplifyF_isSome ε hε points.length points (by omega)
  exact ⟨out, fun fuel hf => simplifyF_mono points.length points ε out fuel hout hf⟩

/-- Witness for C10 at a concrete input. -/
theorem simplifyPoints_terminates_witness :
    (0 : ℝ) ≤ 0 ∧ ∃ out, ∀ fuel, ([] : List Point).length ≤ fuel →
      simplifyF fuel [] 0 = some out :=
  ⟨le_refl 0, simplifyPoints_terminates [] 0 (le_refl 0)⟩

/-- Helper for C4 and C7: the coefficient vector of a non-sentinel fit is
the solver output on the normal-equations system of the normalized points. -/
theorem fitPolynomial_coefficients (points : List Point) (degree : ℕ)
    (width height : ℝ) (h : ¬ points.length < degree + 1) :
    (fitPolynomial points degree width height).coefficients =
      List.ofFn (solveMatrix
        (fun i j : Fin (degree + 1) =>
          ((points.map (fun p => Point.mk (p.x / width) (p.y / height))).map
            (fun p => p.x ^ (i.val + j.val))).sum)
        (fun i : Fin (degree + 1) =>
          ((points.map (fun p => Point.mk (p.x / width) (p.y / height))).map
            (fun p => p.x ^ i.val * p.y)).sum)) := by
  rw [fitPolynomial, if_neg h]

/-- Helper for C7: the curve of a non-sentinel fit samples the fitted
polynomial at `x = 5*k` for `k = 0 .. ⌊width/5⌋`. -/
theorem fitPolynomial_points (points : List Point) (degree : ℕ)
    (width height : ℝ) (h : ¬ points.length < degree + 1) :
    (fitPolynomial points degree width height).points =
      (List.range ((⌊width / 5⌋ + 1).toNat)).map (fun k : ℕ =>
        Point.mk (5 * (k : ℝ))
          (polyEval (fitPolynomial points degree width height).coefficients
            (5 * (k : ℝ) / width) * height)) := by
  rw [fitPolynomial, if_neg h]

/-- Helper for C4: the solver on a 1x1 system computes `B 0 / A 0 0`. -/
theorem solveMatrix_one (A : Matrix (Fin 1) (Fin 1) ℝ) (B : Fin 1 → ℝ) :
    solveMatrix A B 0 = B 0 / A 0 0 := by
  have hfin : List.finRange 1 = [0] := by decide
  have hfilter : (List.finRange 1).filter (fun j => decide ((0 : Fin 1) < j)) = [] := by
    decide
  have hpivot : pivotRow A 0 = 0 := by
    rw [pivotRow, hfilter, List.foldl_nil]
  have hswap : swapSys A B 0 0 = (A, B) := by
    simp [swapSys, Equiv.swap_self]
  have hF : forwardElim A B = (A, B) := by
    rw [forwardElim, hfin, List.foldl_cons, List.foldl_nil, forwardStep, hpivot, hswap,
      hfilter]
    rfl
  have hrev : (List.finRange 1).reverse = [0] := by decide
  have hempty : (Finset.univ.filter (fun j : Fin 1 => (0 : Fin 1) < j)) = ∅ := by decide
  rw [solveMatrix]
  simp only [hF]
  rw [backSub, hrev, List.foldl_cons, List.foldl_nil, backStep, Function.update_same,
    hempty, Finset.sum_empty, sub_zero]

/-- Helper: summing the constant 1 over a list counts its length. -/
theorem sum_map_one (l : List Point) : (l.map (fun _ => (1 : ℝ))).sum = l.length := by
  induction l with
  | nil => simp
  | cons a t ih => simp [ih, add_comm]

/-- C4: for a nonempty input and positive width and height, a degree-0 fit
returns exactly one coefficient, the arithmetic mean of the normalized
y-values `y/height`. -/
theorem fitPolynomial_degree_zero (points : List Point) (width height : ℝ)
    (hne : points ≠ []) (hw : 0 < width) (hh : 0 < height) :
    (fitPolynomial points 0 width height).coefficients =
      [(points.map (fun p => p.y / height)).sum / (points.length : ℝ)] := by
  have hpos := List.length_pos.2 hne
  have hlen : ¬ points.length < 0 + 1 := by omega
  rw [fitPolynomial_coefficients points 0 width height hlen]
  rw [List.ofFn_succ, List.ofFn_zero, solveMatrix_one]
  have hA : ((points.map (fun p => Point.mk (p.x / width) (p.y / height))).map
      (fun p => p.x ^ ((0 : Fin 1).val + (0 : Fin 1).val))).sum = (points.length : ℝ) := by
    have : ((points.map (fun p => Point.mk (p.x / width) (p.y / height))).map
        (fun p => p.x ^ ((0 : Fin 1).val + (0 : Fin 1).val))) =
        (points.map (fun p => Point.mk (p.x / width) (p.y / height))).map
          (fun _ => (1 : ℝ)) := by
      simp
    rw [this, sum_map_one, List.length_map]
  have hB : ((points.map (fun p => Point.mk (p.x / width) (p.y / height))).map
      (fun p => p.x ^ (0 : Fin 1).val * p.y)).sum =
      (points.map (fun p => p.y / height)).sum := by
    rw [List.map_map]
    congr 1
    refine List.map_congr_left ?_
    intro p hp
    simp
  rw [hA, hB]

/-- Witness for C4 at a concrete input. -/
theorem fitPolynomial_degree_zero_witness :
    ([⟨0, 2⟩] : List Point) ≠ [] ∧ (0 : ℝ) < 1 ∧ (0 : ℝ) < 1 ∧
      (fitPolynomial [⟨0, 2⟩] 0 1 1).coefficients =
        [(([⟨0, 2⟩] : List Point).map (fun p => p.y / 1)).sum /
          ((([⟨0, 2⟩] : List Point).length : ℕ) : ℝ)] :=
  ⟨by simp, by norm_num, by norm_num,
    fitPolynomial_degree_zero [⟨0, 2⟩] 1 1 (by simp) (by norm_num) (by norm_num)⟩

/-- C7: for a non-sentinel fit with positive width and height, the curve
consists exactly of the sample points at `x = 0, 5, 10, ...` up to `width`
(all multiples of 5 not exceeding `width`), in ascending order, with
`y = height * Σ cᵢ (x/width)^i` for the returned coefficients. -/
theorem fitPolynomial_curve (points : List Point) (degree : ℕ) (width height : ℝ)
    (hlen : degree + 1 ≤ points.length) (hw : 0 < width) (hh : 0 < height) :
    curveMatchesSpec (fitPolynomial points degree width height) width height := by
  have hno : ¬ points.length < degree + 1 := by omega
  rw [curveMatchesSpec, fitPolynomial_points points degree width height hno]
  refine ⟨?_, ?_, ?_⟩
  · intro p hp
    obtain ⟨k, hk, rfl⟩ := List.mem_map.1 hp
    rw [List.mem_range] at hk
    have hfl : (0 : ℤ) ≤ ⌊width / 5⌋ := Int.floor_nonneg.2 (by positivity)
    have hk' : (k : ℤ) ≤ ⌊width / 5⌋ := by omega
    have hkr : (k : ℝ) ≤ width / 5 := by
      have := Int.le_floor.1 hk'
      exact_mod_cast this
    have hxle : (5 : ℝ) * k ≤ width := by
      have h5 : 5 * (width / 5) = width := by ring
      nlinarith
    exact ⟨k, rfl, hxle, (mul_comm _ _)⟩
  · intro k hk
    rw [List.map_map]
    refine List.mem_map.2 ⟨k, ?_, rfl⟩
    rw [List.mem_range]
    have hk' : (k : ℤ) ≤ ⌊width / 5⌋ := by
      rw [Int.le_floor]
      push_cast
      rw [le_div_iff (by norm_num : (0:ℝ) < 5)]
      linarith
    omega
  · refine List.Pairwise.chain' ?_
    refine List.Pairwise.map _ ?_ (List.pairwise_lt_range _)
    intro a b hab
    show (5 : ℝ) * a < 5 * b
    have : (a : ℝ) < b := by exact_mod_cast hab
    linarith

/-- Witness for C7 at a concrete input. -/
theorem fitPolynomial_curve_witness :
    0 + 1 ≤ ([⟨0, 1⟩] : List Point).length ∧ (0 : ℝ) < 5 ∧ (0 : ℝ) < 1 ∧
      curveMatchesSpec (fitPolynomial [⟨0, 1⟩] 0 5 1) 5 1 :=
  ⟨by simp, by norm_num, by norm_num,
    fitPolynomial_curve [⟨0, 1⟩] 0 5 1 (by simp) (by norm_num) (by norm_num)⟩

/-- Helper for C2: the pivot scan returns either its start value or a
scanned row, and its column entry dominates the start value and every
scanned row in absolute value. -/
theorem pivot_fold_spec {n : ℕ} (A : Matrix (Fin n) (Fin n) ℝ) (i : Fin n) :
    ∀ (l : List (Fin n)) (m : Fin n),
      (l.foldl (pivotStep A i) m = m ∨ l.foldl (pivotStep A i) m ∈ l) ∧
      |A m i| ≤ |A (l.foldl (pivotStep A i) m) i| ∧
      ∀ j ∈ l, |A j i| ≤ |A (l.foldl (pivotStep A i) m) i| := by
  intro l
  induction l with
  | nil => intro m; exact ⟨Or.inl rfl, le_rfl, by simp⟩
  | cons a t ih =>
    intro m
    rw [List.foldl_cons]
    obtain ⟨h1, h2, h3⟩ := ih (pivotStep A i m a)
    have hstep : |A m i| ≤ |A (pivotStep A i m a) i| ∧
        |A a i| ≤ |A (pivotStep A i m a) i| := by
      rw [pivotStep]
      split
      · exact ⟨le_of_lt ‹_›, le_rfl⟩
      · exact ⟨le_rfl, le_of_not_lt ‹_›⟩
    refine ⟨?_, le_trans hstep.1 h2, ?_⟩
    · rcases h1 with h | h
      · rw [h, pivotStep]
        split
        · exact Or.inr (List.mem_cons_self _ _)
        · exact Or.inl rfl
      · exact Or.inr (List.mem_cons_of_mem _ h)
    · intro j hj
      rcases List.mem_cons.1 hj with rfl | hjt
      · exact le_trans hstep.2 h2
      · exact h3 j hjt

/-- Helper for C2: the selected pivot row is at or below row `i` and its
entry in column `i` has the largest absolute value among rows `≥ i`. -/
theorem pivotRow_spec {n : ℕ} (A : Matrix (Fin n) (Fin n) ℝ) (i : Fin n) :
    i ≤ pivotRow A i ∧ ∀ j : Fin n, i ≤ j → |A j i| ≤ |A (pivotRow A i) i| := by
  obtain ⟨h1, h2, h3⟩ := pivot_fold_spec A i
    ((List.finRange n).filter (fun j => decide (i < j))) i
  rw [pivotRow]
  constructor
  · rcases h1 with h | h
    · rw [h]
    · rw [List.mem_filter] at h
      exact le_of_lt (of_decide_eq_true h.2)
  · intro j hij
    rcases eq_or_lt_of_le hij with rfl | hlt
    · exact h2
    · exact h3 j (List.mem_filter.2 ⟨List.mem_finRange j, decide_eq_true hlt⟩)

/-- Helper for C2: a row swap does not change the solution set. -/
theorem swapSys_mulVec {n : ℕ} (A : Matrix (Fin n) (Fin n) ℝ) (B : Fin n → ℝ)
    (i m : Fin n) (x : Fin n → ℝ) :
    ((swapSys A B i m).1.mulVec x = (swapSys A B i m).2) ↔ (A.mulVec x = B) := by
  constructor
  · intro h
    funext r
    have h' : A.mulVec x ((Equiv.swap i m) ((Equiv.swap i m) r)) =
        B ((Equiv.swap i m) ((Equiv.swap i m) r)) := congrFun h ((Equiv.swap i m) r)
    rwa [Equiv.swap_apply_self] at h'
  · intro h
    funext r
    show A.mulVec x ((Equiv.swap i m) r) = B ((Equiv.swap i m) r)
    rw [h]

/-- Helper for C2: a row swap keeps the determinant nonzero. -/
theorem swapSys_det {n : ℕ} (A : Matrix (Fin n) (Fin n) ℝ) (B : Fin n → ℝ)
    (i m : Fin n) (h : A.det ≠ 0) : (swapSys A B i m).1.det ≠ 0 := by
  rw [swapSys]
  show ((A.submatrix (Equiv.swap i m) id).det) ≠ 0
  rw [Matrix.det_permute]
  intro hc
  apply h
  rcases Int.units_eq_one_or (Equiv.Perm.sign (Equiv.swap i m)) with hs | hs <;>
    rw [hs] at hc <;> simpa using hc

/-- Helper for C2: a row swap preserves system equivalence. -/
theorem swapSys_equiv {n : ℕ} (A₀ : Matrix (Fin n) (Fin n) ℝ) (B₀ : Fin n → ℝ)
    (AB : Matrix (Fin n) (Fin n) ℝ × (Fin n → ℝ)) (i m : Fin n)
    (h : EquivSys A₀ B₀ AB) : EquivSys A₀ B₀ (swapSys AB.1 AB.2 i m) :=
  ⟨swapSys_det AB.1 AB.2 i m h.1,
    fun x => (swapSys_mulVec AB.1 AB.2 i m x).trans (h.2 x)⟩

/-- Helper for C2: swapping rows `i` and `m ≥ i` preserves the zeros
below the diagonal in the first `i` columns. -/
theorem swapSys_zeroBelow {n : ℕ} (A : Matrix (Fin n) (Fin n) ℝ) (B : Fin n → ℝ)
    (i m : Fin n) (him : i ≤ m) (h : ZeroBelow A i.val) :
    ZeroBelow (swapSys A B i m).1 i.val := by
  intro r c hc hcr
  show A ((Equiv.swap i m) r) c = 0
  by_cases hri : r = i
  · subst hri
    rw [Equiv.swap_apply_left]
    exact h m c hc (lt_of_lt_of_le hc him)
  · by_cases hrm : r = m
    · subst hrm
      rw [Equiv.swap_apply_right]
      exact h i c hc hc
    · rw [Equiv.swap_apply_of_ne_of_ne hri hrm]
      exact h r c hc hcr

/-- Helper for C2: after the swap the pivot entry sits on the diagonal. -/
theorem swapSys_pivot {n : ℕ} (A : Matrix (Fin n) (Fin n) ℝ) (B : Fin n → ℝ)
    (i m : Fin n) : (swapSys A B i m).1 i i = A m i := by
  show A ((Equiv.swap i m) i) i = A m i
  rw [Equiv.swap_apply_left]

/-- Helper for C2: when the matrix is nonsingular and already eliminated
in the first `i` columns, column `i` has a nonzero entry at or below the
diagonal (otherwise columns `0..i` would be linearly dependent). -/
theorem exists_pivot {n : ℕ} (A : Matrix (Fin n) (Fin n) ℝ) (i : Fin n)
    (hz : ZeroBelow A i.val) (hdet : A.det ≠ 0) :
    ∃ j : Fin n, i ≤ j ∧ A j i ≠ 0 := by
  by_contra hno
  push_neg at hno
  apply hdet
  rw [← Matrix.exists_mulVec_eq_zero_iff]
  have hcols : ∀ r c : Fin n, c.val ≤ i.val → i.val ≤ r.val → A r c = 0 := by
    intro r c hc hr
    rcases lt_or_eq_of_le hc with hlt | heq
    · exact hz r c hlt (lt_of_lt_of_le hlt hr)
    · have hci : c = i := Fin.ext heq
      subst hci
      exact hno r hr
  have hsn : i.val < n := i.isLt
  have hs1n : i.val + 1 ≤ n := hsn
  have hdep : ¬ LinearIndependent ℝ (fun c : Fin (i.val + 1) => fun r : Fin i.val =>
      A ⟨r.val, lt_trans r.isLt hsn⟩ ⟨c.val, lt_of_lt_of_le c.isLt hs1n⟩) := by
    intro hind
    have hcard := hind.fintype_card_le_finrank
    rw [Module.finrank_pi, Fintype.card_fin, Fintype.card_fin] at hcard
    omega
  rw [Fintype.not_linearIndependent_iff] at hdep
  obtain ⟨g, hsum, c₀, hc₀⟩ := hdep
  refine ⟨fun c : Fin n => if h : c.val < i.val + 1 then g ⟨c.val, h⟩ else 0, ?_, ?_⟩
  · intro hzero
    apply hc₀
    have hv := congrFun hzero ⟨c₀.val, lt_of_lt_of_le c₀.isLt hs1n⟩
    simpa using hv
  · funext r
    show (Matrix.mulVec A (fun c : Fin n =>
        if h : c.val < i.val + 1 then g ⟨c.val, h⟩ else 0)) r = 0
    rw [Matrix.mulVec, Matrix.dotProduct]
    by_cases hr : i.val ≤ r.val
    · apply Finset.sum_eq_zero
      intro c _
      by_cases hcs : c.val < i.val + 1
      · rw [hcols r c (by omega) hr, zero_mul]
      · rw [dif_neg hcs, mul_zero]
    · push_neg at hr
      have hrel := congrFun hsum ⟨r.val, hr⟩
      rw [Finset.sum_apply] at hrel
      simp only [Pi.smul_apply, smul_eq_mul, Pi.zero_apply] at hrel
      have hgoal : (∑ c : Fin n, A r c *
          (if h : c.val < i.val + 1 then g ⟨c.val, h⟩ else 0)) =
          ∑ k ∈ Finset.range n, (if hk : k < n then A r ⟨k, hk⟩ *
            (if h : k < i.val + 1 then g ⟨k, h⟩ else 0) else 0) := by
        rw [Finset.sum_fin_eq_sum_range]
      have hres : (∑ k ∈ Finset.range n, (if hk : k < n then A r ⟨k, hk⟩ *
            (if h : k < i.val + 1 then g ⟨k, h⟩ else 0) else 0)) =
          ∑ k ∈ Finset.range (i.val + 1), (if hk : k < n then A r ⟨k, hk⟩ *
            (if h : k < i.val + 1 then g ⟨k, h⟩ else 0) else 0) := by
        symm
        apply Finset.sum_subset (Finset.range_subset.2 hs1n)
        intro k hkn hk1
        rw [Finset.mem_range] at hkn
        rw [Finset.mem_range, not_lt] at hk1
        rw [dif_pos hkn, dif_neg (by omega), mul_zero]
      have hrel2 : (∑ c : Fin (i.val + 1), g c *
          A ⟨r.val, lt_trans hr hsn⟩ ⟨c.val, lt_of_lt_of_le c.isLt hs1n⟩) =
          ∑ k ∈ Finset.range (i.val + 1), (if h : k < i.val + 1 then
            g ⟨k, h⟩ * A ⟨r.val, lt_trans hr hsn⟩ ⟨k, lt_of_lt_of_le h hs1n⟩ else 0) := by
        rw [Finset.sum_fin_eq_sum_range]
      have hmatch : (∑ k ∈ Finset.range (i.val + 1), (if hk : k < n then A r ⟨k, hk⟩ *
            (if h : k < i.val + 1 then g ⟨k, h⟩ else 0) else 0)) =
          ∑ k ∈ Finset.range (i.val + 1), (if h : k < i.val + 1 then
            g ⟨k, h⟩ * A ⟨r.val, lt_trans hr hsn⟩ ⟨k, lt_of_lt_of_le h hs1n⟩ else 0) := by
        apply Finset.sum_congr rfl
        intro k hk
        rw [Finset.mem_range] at hk
        have hkn : k < n := by omega
        rw [dif_pos hkn, dif_pos hk, dif_pos hk]
        have hrow : (⟨r.val, lt_trans hr hsn⟩ : Fin n) = r := Fin.eta r _
        rw [hrow]
        exact mul_comm _ _
      have hfinal : (∑ c : Fin n, A r c *
          (if h : c.val < i.val + 1 then g ⟨c.val, h⟩ else 0)) = 0 := by
        rw [hgoal, hres, hmatch, ← hrel2]
        exact hrel
      exact hfinal

/-- Helper for C2: a row elimination step changes nothing outside row `j`. -/
theorem elimStep_other {n : ℕ} (i : Fin n)
    (AB : Matrix (Fin n) (Fin n) ℝ × (Fin n → ℝ)) (j r : Fin n) (hrj : r ≠ j) :
    (elimStep i AB j).1 r = AB.1 r ∧ (elimStep i AB j).2 r = AB.2 r :=
  ⟨Matrix.updateRow_ne hrj, Function.update_noteq hrj _ _⟩

/-- Helper for C2: a row elimination step keeps the columns of row `j`
left of the pivot and zeroes the pivot column when the pivot is nonzero. -/
theorem elimStep_row {n : ℕ} (i : Fin n)
    (AB : Matrix (Fin n) (Fin n) ℝ × (Fin n → ℝ)) (j : Fin n) :
    (∀ k : Fin n, ¬ i ≤ k → (elimStep i AB j).1 j k = AB.1 j k) ∧
    (AB.1 i i ≠ 0 → (elimStep i AB j).1 j i = 0) := by
  constructor
  · intro k hk
    show AB.1.updateRow j _ j k = _
    rw [Matrix.updateRow_self]
    exact if_neg hk
  · intro hpiv
    show AB.1.updateRow j _ j i = 0
    rw [Matrix.updateRow_self]
    rw [if_pos (le_refl i), div_mul_cancel₀ _ hpiv]
    exact sub_self _

/-- Helper for C2: a row elimination step preserves the zeros below the
diagonal in the first `i` columns. -/
theorem elimStep_zeroBelow {n : ℕ} (i : Fin n)
    (AB : Matrix (Fin n) (Fin n) ℝ × (Fin n → ℝ)) (j : Fin n)
    (h : ZeroBelow AB.1 i.val) : ZeroBelow (elimStep i AB j).1 i.val := by
  intro r c hc hcr
  by_cases hrj : r = j
  · subst hrj
    show AB.1.updateRow r _ r c = 0
    rw [Matrix.updateRow_self]
    rw [if_neg (not_le.2 (show c < i from hc))]
    exact h r c hc hcr
  · show AB.1.updateRow j _ r c = 0
    rw [Matrix.updateRow_ne hrj]
    exact h r c hc hcr

/-- Helper for C2: a row elimination step preserves the determinant and
the solution set, provided the pivot row vanishes left of the pivot. -/
theorem elimStep_equiv {n : ℕ} (A₀ : Matrix (Fin n) (Fin n) ℝ) (B₀ : Fin n → ℝ)
    (AB : Matrix (Fin n) (Fin n) ℝ × (Fin n → ℝ)) (i j : Fin n) (hij : i < j)
    (hzi : ∀ k : Fin n, k.val < i.val → AB.1 i k = 0)
    (h : EquivSys A₀ B₀ AB) : EquivSys A₀ B₀ (elimStep i AB j) := by
  have hji : j ≠ i := ne_of_gt hij
  have hrow : (fun k => if i ≤ k then AB.1 j k - AB.1 j i / AB.1 i i * AB.1 i k
      else AB.1 j k) = AB.1 j + (-(AB.1 j i / AB.1 i i)) • AB.1 i := by
    funext k
    by_cases hk : i ≤ k
    · rw [if_pos hk]
      show _ = AB.1 j k + (-(AB.1 j i / AB.1 i i)) * AB.1 i k
      ring
    · rw [if_neg hk]
      have hz : AB.1 i k = 0 := hzi k (not_le.1 hk)
      show AB.1 j k = AB.1 j k + (-(AB.1 j i / AB.1 i i)) * AB.1 i k
      rw [hz, mul_zero, add_zero]
  have hA1 : (elimStep i AB j).1 =
      AB.1.updateRow j (AB.1 j + (-(AB.1 j i / AB.1 i i)) • AB.1 i) := by
    show AB.1.updateRow j _ = _
    rw [hrow]
  constructor
  · rw [hA1, Matrix.det_updateRow_add_smul_self AB.1 hji]
    exact h.1
  · intro x
    rw [← h.2 x]
    have fact1 : ∀ rr : Fin n, rr ≠ j →
        (elimStep i AB j).1.mulVec x rr = AB.1.mulVec x rr := by
      intro rr hrj
      show Matrix.dotProduct ((elimStep i AB j).1 rr) x =
        Matrix.dotProduct (AB.1 rr) x
      rw [(elimStep_other i AB j rr hrj).1]
    have fact2 : ∀ rr : Fin n, rr ≠ j → (elimStep i AB j).2 rr = AB.2 rr :=
      fun rr hrj => (elimStep_other i AB j rr hrj).2
    have fact3 : (elimStep i AB j).1.mulVec x j =
        AB.1.mulVec x j - AB.1 j i / AB.1 i i * AB.1.mulVec x i := by
      show Matrix.dotProduct ((elimStep i AB j).1 j) x =
        Matrix.dotProduct (AB.1 j) x -
          AB.1 j i / AB.1 i i * Matrix.dotProduct (AB.1 i) x
      rw [hA1, Matrix.updateRow_self, Matrix.add_dotProduct, Matrix.smul_dotProduct,
        smul_eq_mul]
      ring
    have fact4 : (elimStep i AB j).2 j = AB.2 j - AB.1 j i / AB.1 i i * AB.2 i := by
      show Function.update AB.2 j _ j = _
      rw [Function.update_same]
    constructor
    · intro hx
      funext rr
      by_cases hrj : rr = j
      · subst hrj
        have hxi := congrFun hx i
        rw [fact1 i (ne_of_lt hij), fact2 i (ne_of_lt hij)] at hxi
        have hxj := congrFun hx rr
        rw [fact3, fact4, hxi] at hxj
        linarith
      · have hxr := congrFun hx rr
        rwa [fact1 rr hrj, fact2 rr hrj] at hxr
    · intro hx
      funext rr
      by_cases hrj : rr = j
      · subst hrj
        rw [fact3, fact4, congrFun hx rr, congrFun hx i]
      · rw [fact1 rr hrj, fact2 rr hrj, congrFun hx rr]

/-- Helper for C2: the elimination fold over the rows below the pivot
preserves system equivalence and the accumulated zeros, does not touch
other rows, and zeroes the pivot column in every processed row. -/
theorem elimFold_spec {n : ℕ} (A₀ : Matrix (Fin n) (Fin n) ℝ) (B₀ : Fin n → ℝ)
    (i : Fin n) :
    ∀ (l : List (Fin n)) (AB : Matrix (Fin n) (Fin n) ℝ × (Fin n → ℝ)),
      l.Nodup → (∀ j ∈ l, i < j) →
      EquivSys A₀ B₀ AB → ZeroBelow AB.1 i.val → AB.1 i i ≠ 0 →
      EquivSys A₀ B₀ (l.foldl (elimStep i) AB) ∧
      ZeroBelow (l.foldl (elimStep i) AB).1 i.val ∧
      (∀ r : Fin n, r ∉ l → (l.foldl (elimStep i) AB).1 r = AB.1 r) ∧
      (∀ j ∈ l, (l.foldl (elimStep i) AB).1 j i = 0) := by
  intro l
  induction l with
  | nil =>
    intro AB _ _ h1 h2 _
    exact ⟨h1, h2, fun r _ => rfl, by simp⟩
  | cons a t ih =>
    intro AB hnd hmem h1 h2 hpiv
    rw [List.foldl_cons]
    have hia : i < a := hmem a (List.mem_cons_self _ _)
    have hstep1 : EquivSys A₀ B₀ (elimStep i AB a) :=
      elimStep_equiv A₀ B₀ AB i a hia (fun k hk => h2 i k hk hk) h1
    have hstep2 : ZeroBelow (elimStep i AB a).1 i.val := elimStep_zeroBelow i AB a h2
    have hrowi : (elimStep i AB a).1 i = AB.1 i :=
      (elimStep_other i AB a i (ne_of_lt hia)).1
    have hpiv' : (elimStep i AB a).1 i i ≠ 0 := by
      rw [hrowi]
      exact hpiv
    have hnd' := List.nodup_cons.1 hnd
    obtain ⟨g1, g2, g3, g4⟩ := ih (elimStep i AB a) hnd'.2
      (fun j hj => hmem j (List.mem_cons_of_mem _ hj)) hstep1 hstep2 hpiv'
    refine ⟨g1, g2, ?_, ?_⟩
    · intro r hr
      have hra : r ≠ a := fun he => hr (he ▸ List.mem_cons_self _ _)
      have hrt : r ∉ t := fun hm => hr (List.mem_cons_of_mem _ hm)
      rw [g3 r hrt]
      exact (elimStep_other i AB a r hra).1
    · intro j hj
      rcases List.mem_cons.1 hj with rfl | hjt
      · rw [g3 j hnd'.1]
        exact (elimStep_row i AB j).2 hpiv
      · exact g4 j hjt

/-- Helper for C2: one outer elimination iteration (pivot, swap,
eliminate) preserves system equivalence and extends the zero region by
one column. -/
theorem forwardStep_inv {n : ℕ} (A₀ : Matrix (Fin n) (Fin n) ℝ) (B₀ : Fin n → ℝ)
    (AB : Matrix (Fin n) (Fin n) ℝ × (Fin n → ℝ)) (i : Fin n)
    (h1 : EquivSys A₀ B₀ AB) (h2 : ZeroBelow AB.1 i.val) :
    EquivSys A₀ B₀ (forwardStep AB i) ∧ ZeroBelow (forwardStep AB i).1 (i.val + 1) := by
  obtain ⟨hm1, hm2⟩ := pivotRow_spec AB.1 i
  obtain ⟨jnz, hjnz1, hjnz2⟩ := exists_pivot AB.1 i h2 h1.1
  have hmnz : AB.1 (pivotRow AB.1 i) i ≠ 0 := by
    intro h0
    apply hjnz2
    have habs := hm2 jnz hjnz1
    rw [h0, abs_zero] at habs
    exact abs_eq_zero.1 (le_antisymm habs (abs_nonneg _))
  have hS1 : EquivSys A₀ B₀ (swapSys AB.1 AB.2 i (pivotRow AB.1 i)) :=
    swapSys_equiv A₀ B₀ AB i _ h1
  have hS2 : ZeroBelow (swapSys AB.1 AB.2 i (pivotRow AB.1 i)).1 i.val :=
    swapSys_zeroBelow AB.1 AB.2 i _ hm1 h2
  have hSpiv : (swapSys AB.1 AB.2 i (pivotRow AB.1 i)).1 i i ≠ 0 := by
    rw [swapSys_pivot]
    exact hmnz
  have hlnd : ((List.finRange n).filter (fun j => decide (i < j))).Nodup :=
    (List.nodup_finRange n).filter _
  have hlmem : ∀ j ∈ (List.finRange n).filter (fun j => decide (i < j)), i < j := by
    intro j hj
    rw [List.mem_filter] at hj
    exact of_decide_eq_true hj.2
  obtain ⟨g1, g2, g3, g4⟩ := elimFold_spec A₀ B₀ i
    ((List.finRange n).filter (fun j => decide (i < j)))
    (swapSys AB.1 AB.2 i (pivotRow AB.1 i)) hlnd hlmem hS1 hS2 hSpiv
  have hfold : forwardStep AB i =
      ((List.finRange n).filter (fun j => decide (i < j))).foldl (elimStep i)
        (swapSys AB.1 AB.2 i (pivotRow AB.1 i)) := rfl
  rw [hfold]
  refine ⟨g1, ?_⟩
  intro r c hc hcr
  rcases Nat.lt_or_ge c.val i.val with hci | hci
  · exact g2 r c hci hcr
  · have hcieq : c = i := Fin.ext (by omega)
    rw [hcieq] at hcr ⊢
    have hrl : r ∈ (List.finRange n).filter (fun j => decide (i < j)) := by
      rw [List.mem_filter]
      exact ⟨List.mem_finRange r, decide_eq_true (show i < r from hcr)⟩
    exact g4 r hrl

/-- Helper for C2: running the outer loop from position `v` to the end
turns `v` eliminated columns into `n` eliminated columns while keeping
system equivalence. -/
theorem forward_drop_inv {n : ℕ} (A₀ : Matrix (Fin n) (Fin n) ℝ) (B₀ : Fin n → ℝ) :
    ∀ (k v : ℕ), v + k = n →
      ∀ AB : Matrix (Fin n) (Fin n) ℝ × (Fin n → ℝ),
        EquivSys A₀ B₀ AB → ZeroBelow AB.1 v →
        EquivSys A₀ B₀ (((List.finRange n).drop v).foldl forwardStep AB) ∧
        ZeroBelow (((List.finRange n).drop v).foldl forwardStep AB).1 n := by
  intro k
  induction k with
  | zero =>
    intro v hv AB h1 h2
    have hdrop : (List.finRange n).drop v = [] := by
      apply List.drop_eq_nil_of_le
      rw [List.length_finRange]
      omega
    rw [hdrop, List.foldl_nil]
    refine ⟨h1, ?_⟩
    have hvn : v = n := by omega
    rwa [hvn] at h2
  | succ k ih =>
    intro v hv AB h1 h2
    have hvn : v < n := by omega
    have hlen : v < (List.finRange n).length := by
      rw [List.length_finRange]
      exact hvn
    rw [List.drop_eq_getElem_cons hlen, List.foldl_cons]
    have hget : (List.finRange n)[v] = (⟨v, hvn⟩ : Fin n) :=
      ((List.get_eq_getElem _ ⟨v, hlen⟩).symm).trans (List.get_finRange hlen)
    rw [hget]
    obtain ⟨s1, s2⟩ := forwardStep_inv A₀ B₀ AB ⟨v, hvn⟩ h1 h2
    exact ih (v + 1) (by omega) (forwardStep AB ⟨v, hvn⟩) s1 s2

/-- Helper for C2: the back-substitution fold leaves unprocessed entries
untouched and gives every processed entry its defining equation (the
processed indices strictly decrease). -/
theorem backSub_fold_spec {n : ℕ} (A : Matrix (Fin n) (Fin n) ℝ) (B : Fin n → ℝ) :
    ∀ (l : List (Fin n)) (x₀ : Fin n → ℝ), l.Pairwise (· > ·) →
      (∀ j : Fin n, j ∉ l → l.foldl (backStep A B) x₀ j = x₀ j) ∧
      (∀ i ∈ l, l.foldl (backStep A B) x₀ i =
        (B i - ∑ j ∈ Finset.univ.filter (fun j => i < j),
          A i j * l.foldl (backStep A B) x₀ j) / A i i) := by
  intro l
  induction l with
  | nil =>
    intro x₀ _
    exact ⟨fun j _ => rfl, by simp⟩
  | cons a t ih =>
    intro x₀ hpw
    rw [List.foldl_cons]
    have hpc := List.pairwise_cons.1 hpw
    obtain ⟨g1, g2⟩ := ih (backStep A B x₀ a) hpc.2
    have hat : a ∉ t := fun hm => lt_irrefl a (hpc.1 a hm)
    constructor
    · intro j hj
      have hja : j ≠ a := fun he => hj (he ▸ List.mem_cons_self a t)
      have hjt : j ∉ t := fun hm => hj (List.mem_cons_of_mem _ hm)
      rw [g1 j hjt]
      show Function.update x₀ a _ j = x₀ j
      rw [Function.update_noteq hja]
    · intro i hi
      rcases List.mem_cons.1 hi with rfl | hit
      · rw [g1 i hat]
        show Function.update x₀ i _ i = _
        rw [Function.update_same]
        congr 2
        apply Finset.sum_congr rfl
        intro j hj
        rw [Finset.mem_filter] at hj
        have hja : j ≠ i := ne_of_gt hj.2
        have hjt : j ∉ t := fun hm => absurd (hpc.1 j hm) (not_lt.2 (le_of_lt hj.2))
        have hstep : t.foldl (backStep A B) (backStep A B x₀ i) j = x₀ j := by
          rw [g1 j hjt]
          show Function.update x₀ i _ j = x₀ j
          rw [Function.update_noteq hja]
        rw [hstep]
      · exact g2 i hit

/-- Helper for C2: every entry of `backSub` satisfies its defining
back-substitution equation. -/
theorem backSub_spec {n : ℕ} (A : Matrix (Fin n) (Fin n) ℝ) (B : Fin n → ℝ)
    (i : Fin n) :
    backSub A B i = (B i - ∑ j ∈ Finset.univ.filter (fun j => i < j),
      A i j * backSub A B j) / A i i := by
  have hpw : ((List.finRange n).reverse).Pairwise (· > ·) := by
    rw [List.pairwise_reverse]
    exact List.pairwise_lt_finRange n
  obtain ⟨g1, g2⟩ := backSub_fold_spec A B ((List.finRange n).reverse) (fun _ => 0) hpw
  exact g2 i (by rw [List.mem_reverse]; exact List.mem_finRange i)

/-- Helper for C2: back substitution solves an upper-triangular system
with nonzero diagonal. -/
theorem backSub_solves {n : ℕ} (A : Matrix (Fin n) (Fin n) ℝ) (B : Fin n → ℝ)
    (htri : ∀ r c : Fin n, c.val < r.val → A r c = 0)
    (hdiag : ∀ i : Fin n, A i i ≠ 0) :
    A.mulVec (backSub A B) = B := by
  funext i
  show (∑ j : Fin n, A i j * backSub A B j) = B i
  have hlow : (∑ j ∈ Finset.univ.filter (fun j => ¬ i < j), A i j * backSub A B j) =
      A i i * backSub A B i := by
    apply Finset.sum_eq_single_of_mem i
    · rw [Finset.mem_filter]
      exact ⟨Finset.mem_univ i, by simp⟩
    · intro b hb hbi
      rw [Finset.mem_filter, not_lt] at hb
      rw [htri i b (Fin.lt_iff_val_lt_val.1 (lt_of_le_of_ne hb.2 hbi)), zero_mul]
  calc (∑ j : Fin n, A i j * backSub A B j)
      = (∑ j ∈ Finset.univ.filter (fun j => i < j), A i j * backSub A B j) +
        ∑ j ∈ Finset.univ.filter (fun j => ¬ i < j), A i j * backSub A B j :=
        (Finset.sum_filter_add_sum_filter_not Finset.univ _ _).symm
    _ = (∑ j ∈ Finset.univ.filter (fun j => i < j), A i j * backSub A B j) +
        A i i * backSub A B i := by rw [hlow]
    _ = B i := by
        rw [backSub_spec A B i, mul_comm (A i i), div_mul_cancel₀ _ (hdiag i)]
        ring

/-- C2: for every `n`, every nonsingular real `n x n` matrix `A` and every
vector `B`, `solveMatrix` (Gaussian elimination with partial pivoting
followed by back substitution, over exact real arithmetic) returns the
unique vector `x` with `A.mulVec x = B`. -/
theorem solveMatrix_correct {n : ℕ} (A : Matrix (Fin n) (Fin n) ℝ) (B : Fin n → ℝ)
    (hdet : A.det ≠ 0) :
    A.mulVec (solveMatrix A B) = B ∧
      ∀ y : Fin n → ℝ, A.mulVec y = B → y = solveMatrix A B := by
  have h0 : EquivSys A B (A, B) := ⟨hdet, fun x => Iff.rfl⟩
  have hz0 : ZeroBelow (A, B).1 0 := fun r c hc _ => absurd hc (Nat.not_lt_zero _)
  obtain ⟨hF1, hF2⟩ := forward_drop_inv A B n 0 (by omega) (A, B) h0 hz0
  have hFE : EquivSys A B (forwardElim A B) := hF1
  have htri : ∀ r c : Fin n, c.val < r.val → (forwardElim A B).1 r c = 0 :=
    fun r c hcr => hF2 r c c.isLt hcr
  have hdetF : (forwardElim A B).1.det ≠ 0 := hFE.1
  have hBT : (forwardElim A B).1.BlockTriangular id := by
    intro r c hrc
    exact htri r c hrc
  have hprod := Matrix.det_of_upperTriangular hBT
  have hdiag : ∀ i : Fin n, (forwardElim A B).1 i i ≠ 0 := by
    intro i h0i
    apply hdetF
    rw [hprod]
    exact Finset.prod_eq_zero (Finset.mem_univ i) h0i
  have hsol : (forwardElim A B).1.mulVec (solveMatrix A B) = (forwardElim A B).2 :=
    backSub_solves (forwardElim A B).1 (forwardElim A B).2 htri hdiag
  have hx : A.mulVec (solveMatrix A B) = B := (hFE.2 _).1 hsol
  refine ⟨hx, ?_⟩
  intro y hy
  by_contra hne
  apply hdet
  rw [← Matrix.exists_mulVec_eq_zero_iff]
  refine ⟨y - solveMatrix A B, sub_ne_zero.2 hne, ?_⟩
  rw [Matrix.mulVec_sub, hy, hx, sub_self]

/-- Witness for C2 on a concrete nonsingular 1x1 system. -/
theorem solveMatrix_correct_witness :
    (Matrix.det (fun _ _ => (2 : ℝ) : Matrix (Fin 1) (Fin 1) ℝ) ≠ 0) ∧
      (Matrix.mulVec (fun _ _ => (2 : ℝ) : Matrix (Fin 1) (Fin 1) ℝ)
          (solveMatrix (fun _ _ => (2 : ℝ)) (fun _ => (6 : ℝ))) = (fun _ => (6 : ℝ)) ∧
        ∀ y : Fin 1 → ℝ, Matrix.mulVec (fun _ _ => (2 : ℝ) : Matrix (Fin 1) (Fin 1) ℝ) y =
          (fun _ => (6 : ℝ)) →
          y = solveMatrix (fun _ _ => (2 : ℝ)) (fun _ => (6 : ℝ))) := by
  have hdet : Matrix.det (fun _ _ => (2 : ℝ) : Matrix (Fin 1) (Fin 1) ℝ) ≠ 0 := by
    rw [Matrix.det_fin_one]
    norm_num
  exact ⟨hdet, solveMatrix_correct _ _ hdet⟩

end Eyes
